import Mathlib

/-!
Verification of the Turkish morphology core (vowel harmony, morphotactics,
root validation, suffix strippers) of the `durak` library.

Strings are modelled as lists of characters (`Str`).  Rust byte-level
operations are modelled explicitly where byte and character views differ:
`byteLen` gives the UTF-8 byte count used by `str::len`, while `List.length`
gives the character count used by `str::chars().count()`.

The embedded lemma-dictionary resource
(`resources/tr/lemmas/turkish_lemma_dict.txt`) is not part of the source
tree, so every dictionary-dependent definition is parameterised by the parsed
dictionary (a list of inflected/lemma pairs); `spec_lemma_dict` below is a
spec-modelled instance used for concrete evaluations.
-/

set_option maxRecDepth 16384

namespace Durak

/-- Words and suffixes as character lists (Rust `&str` seen as its chars). -/
abbrev Str := List Char

/-- Unicode simple lowercasing restricted to the alphabet the library works
with: ASCII A–Z (note the dotless uppercase 'I' → 'i', the generic Unicode
mapping, not the Turkish 'ı') and the Turkish uppercase letters Ç Ğ Ö Ş Ü.
Other characters are left unchanged. -/
def lowerBasic (c : Char) : Char :=
  if c = 'Ç' then 'ç'
  else if c = 'Ğ' then 'ğ'
  else if c = 'Ö' then 'ö'
  else if c = 'Ş' then 'ş'
  else if c = 'Ü' then 'ü'
  else if 'A' ≤ c ∧ c ≤ 'Z' then Char.ofNat (c.toNat + 32)
  else c

/-- Rust `char::to_lowercase` as a character sequence: 'İ' (U+0130) lowers to
the two characters "i" followed by the combining dot above (U+0307); every
other relevant character lowers to a single character. -/
def rustLowerChar (c : Char) : List Char :=
  if c = 'İ' then ['i', '\u0307'] else [lowerBasic c]

/-- Rust `str::to_lowercase` (character-wise lowering, concatenated). -/
def toLower (s : Str) : Str :=
  s.flatMap rustLowerChar

/-- UTF-8 byte count of one character (what Rust `str::len` sums). -/
def charUtf8Len (c : Char) : Nat :=
  if c.toNat < 0x80 then 1
  else if c.toNat < 0x800 then 2
  else if c.toNat < 0x10000 then 3
  else 4

/-- Rust `str::len`: the UTF-8 byte length of a string. -/
def byteLen (s : Str) : Nat :=
  (s.map charUtf8Len).sum

/-! ## vowel_harmony.rs -/

/-- The four Turkish vowel classes (`VowelClass`, vowel_harmony.rs 9-19). -/
inductive VowelClass where
  | FrontUnrounded
  | FrontRounded
  | BackUnrounded
  | BackRounded
deriving DecidableEq

/-- `VowelClass::is_front` (vowel_harmony.rs 23-25). -/
def VowelClass.is_front : VowelClass → Bool
  | .FrontUnrounded => true
  | .FrontRounded => true
  | _ => false

/-- `VowelClass::is_back` (vowel_harmony.rs 28-30). -/
def VowelClass.is_back (v : VowelClass) : Bool :=
  !v.is_front

/-- `VowelClass::is_rounded` (vowel_harmony.rs 33-35). -/
def VowelClass.is_rounded : VowelClass → Bool
  | .FrontRounded => true
  | .BackRounded => true
  | _ => false

/-- `get_vowel_class` (vowel_harmony.rs 40-48): lower the character with the
generic Unicode mapping, take the first resulting character, and classify. -/
def get_vowel_class (c : Char) : Option VowelClass :=
  match (rustLowerChar c).head? with
  | none => none
  | some l =>
    if l = 'e' ∨ l = 'i' then some VowelClass.FrontUnrounded
    else if l = 'ö' ∨ l = 'ü' then some VowelClass.FrontRounded
    else if l = 'a' ∨ l = 'ı' then some VowelClass.BackUnrounded
    else if l = 'o' ∨ l = 'u' then some VowelClass.BackRounded
    else none

/-- Rust `Iterator::find_map get_vowel_class` over a character list. -/
def findMapVowel : Str → Option VowelClass
  | [] => none
  | c :: rest =>
    match get_vowel_class c with
    | some v => some v
    | none => findMapVowel rest

/-- `get_last_vowel_class` (vowel_harmony.rs 51-55): first vowel class found
scanning from the right. -/
def get_last_vowel_class (word : Str) : Option VowelClass :=
  findMapVowel word.reverse

/-- `check_harmony` (vowel_harmony.rs 74-85): only the front/back axis is
compared; any rounding combination within the same axis is accepted. -/
def check_harmony (root_vowel suffix_vowel : VowelClass) : Bool :=
  if root_vowel.is_front != suffix_vowel.is_front then false else true

/-- `check_vowel_harmony` (vowel_harmony.rs 99-119). -/
def check_vowel_harmony (root suffix : Str) : Bool :=
  match get_last_vowel_class root with
  | none => false
  | some root_vowel =>
    let suffix_vowels := suffix.filterMap get_vowel_class
    if suffix_vowels.isEmpty then true
    else suffix_vowels.all (fun v => check_harmony root_vowel v)

/-! ## morphotactics.rs -/

/-- Nominal paradigm slots with their discriminant values
(`NominalSlot`, morphotactics.rs 29-38). -/
inductive NominalSlot where
  | Plural
  | Possessive
  | Case
  | Copula
deriving DecidableEq

/-- The `as usize` discriminant of a nominal slot. -/
def NominalSlot.rank : NominalSlot → Nat
  | .Plural => 1
  | .Possessive => 2
  | .Case => 3
  | .Copula => 4

/-- Verbal paradigm slots with their discriminant values
(`VerbalSlot`, morphotactics.rs 42-53). -/
inductive VerbalSlot where
  | Voice
  | Negation
  | TenseAspect
  | Person
  | Copula
deriving DecidableEq

/-- The `as usize` discriminant of a verbal slot. -/
def VerbalSlot.rank : VerbalSlot → Nat
  | .Voice => 1
  | .Negation => 2
  | .TenseAspect => 3
  | .Person => 4
  | .Copula => 5

/-- `SuffixSlot` (morphotactics.rs 57-62). -/
inductive SuffixSlot where
  | Nominal (s : NominalSlot)
  | Verbal (s : VerbalSlot)
  | Unknown
deriving DecidableEq

/-- Test for the `Nominal` constructor (the `matches!` checks of
`validate_sequence`). -/
def SuffixSlot.isNominal : SuffixSlot → Bool
  | .Nominal _ => true
  | _ => false

/-- Test for the `Verbal` constructor. -/
def SuffixSlot.isVerbal : SuffixSlot → Bool
  | .Verbal _ => true
  | _ => false

/-- Test for the `Unknown` constructor. -/
def SuffixSlot.isUnknown : SuffixSlot → Bool
  | .Unknown => true
  | _ => false

/-- The `nominal_map` insertions of `MorphotacticClassifier::new`
(morphotactics.rs 76-114), in source order.  All keys are distinct, so an
association-list lookup agrees with the hash map. -/
def nominal_map : List (Str × NominalSlot) :=
  [(("lar").data, .Plural), (("ler").data, .Plural),
   (("ım").data, .Possessive), (("im").data, .Possessive),
   (("um").data, .Possessive), (("üm").data, .Possessive),
   (("ımız").data, .Possessive), (("imiz").data, .Possessive),
   (("umuz").data, .Possessive), (("ümüz").data, .Possessive),
   (("da").data, .Case), (("de").data, .Case),
   (("ta").data, .Case), (("te").data, .Case),
   (("dan").data, .Case), (("den").data, .Case),
   (("tan").data, .Case), (("ten").data, .Case),
   (("ın").data, .Case), (("in").data, .Case),
   (("un").data, .Case), (("ün").data, .Case),
   (("nın").data, .Case), (("nin").data, .Case),
   (("nun").data, .Case), (("nün").data, .Case),
   (("a").data, .Case), (("e").data, .Case),
   (("ya").data, .Case), (("ye").data, .Case),
   (("ı").data, .Case), (("i").data, .Case),
   (("u").data, .Case), (("ü").data, .Case)]

/-- The `verbal_map` insertions of `MorphotacticClassifier::new`
(morphotactics.rs 117-159), in source order. -/
def verbal_map : List (Str × VerbalSlot) :=
  [(("ıl").data, .Voice), (("il").data, .Voice),
   (("ul").data, .Voice), (("ül").data, .Voice),
   (("ın").data, .Voice), (("in").data, .Voice),
   (("un").data, .Voice), (("ün").data, .Voice),
   (("ma").data, .Negation), (("me").data, .Negation),
   (("di").data, .TenseAspect), (("dı").data, .TenseAspect),
   (("du").data, .TenseAspect), (("dü").data, .TenseAspect),
   (("ti").data, .TenseAspect), (("tı").data, .TenseAspect),
   (("tu").data, .TenseAspect), (("tü").data, .TenseAspect),
   (("yor").data, .TenseAspect), (("acak").data, .TenseAspect),
   (("ecek").data, .TenseAspect), (("mış").data, .TenseAspect),
   (("miş").data, .TenseAspect), (("muş").data, .TenseAspect),
   (("müş").data, .TenseAspect),
   (("m").data, .Person), (("n").data, .Person),
   (("k").data, .Person), (("z").data, .Person),
   (("ım").data, .Person), (("im").data, .Person),
   (("um").data, .Person), (("üm").data, .Person),
   (("nız").data, .Person), (("niz").data, .Person),
   (("nuz").data, .Person), (("nüz").data, .Person)]

/-- `nominal_map.get` (hash-map lookup; keys are distinct). -/
def nominalLookup (s : Str) : Option NominalSlot :=
  (nominal_map.find? (fun p => decide (p.1 = s))).map (fun p => p.2)

/-- `verbal_map.get` (hash-map lookup; keys are distinct). -/
def verbalLookup (s : Str) : Option VerbalSlot :=
  (verbal_map.find? (fun p => decide (p.1 = s))).map (fun p => p.2)

/-- `MorphotacticClassifier::classify` (morphotactics.rs 170-182): verbal
map first, then nominal, otherwise `Unknown`. -/
def classify (s : Str) : SuffixSlot :=
  match verbalLookup s with
  | some v => SuffixSlot.Verbal v
  | none =>
    match nominalLookup s with
    | some n => SuffixSlot.Nominal n
    | none => SuffixSlot.Unknown

/-- The loop of `validate_nominal_sequence` (morphotactics.rs 260-278):
non-`Nominal` entries are skipped, `last_slot_rank` starts at 0. -/
def goNominal (last : Nat) : List SuffixSlot → Bool
  | [] => true
  | .Nominal n :: rest =>
    if n.rank < last then false else goNominal n.rank rest
  | _ :: rest => goNominal last rest

/-- `validate_nominal_sequence` (morphotactics.rs 260-278). -/
def validate_nominal_sequence (slots : List SuffixSlot) : Bool :=
  goNominal 0 slots

/-- The loop of `validate_verbal_sequence` (morphotactics.rs 281-297). -/
def goVerbal (last : Nat) : List SuffixSlot → Bool
  | [] => true
  | .Verbal v :: rest =>
    if v.rank < last then false else goVerbal v.rank rest
  | _ :: rest => goVerbal last rest

/-- `validate_verbal_sequence` (morphotactics.rs 281-297). -/
def validate_verbal_sequence (slots : List SuffixSlot) : Bool :=
  goVerbal 0 slots

/-- The slot-collecting loop of `try_validate_as_nominal`
(morphotactics.rs 232-243): `none` models the early `return false` when a
suffix is not in the nominal map. -/
def collectNominal : List Str → Option (List SuffixSlot)
  | [] => some []
  | s :: rest =>
    match nominalLookup s with
    | some slot => (collectNominal rest).map (fun l => SuffixSlot.Nominal slot :: l)
    | none => none

/-- `try_validate_as_nominal` (morphotactics.rs 232-243). -/
def try_validate_as_nominal (ss : List Str) : Bool :=
  match collectNominal ss with
  | none => false
  | some slots => validate_nominal_sequence slots

/-- The slot-collecting loop of `try_validate_as_verbal`
(morphotactics.rs 246-257). -/
def collectVerbal : List Str → Option (List SuffixSlot)
  | [] => some []
  | s :: rest =>
    match verbalLookup s with
    | some slot => (collectVerbal rest).map (fun l => SuffixSlot.Verbal slot :: l)
    | none => none

/-- `try_validate_as_verbal` (morphotactics.rs 246-257). -/
def try_validate_as_verbal (ss : List Str) : Bool :=
  match collectVerbal ss with
  | none => false
  | some slots => validate_verbal_sequence slots

/-- `MorphotacticClassifier::validate_sequence` (morphotactics.rs 189-229). -/
def validate_sequence (ss : List Str) : Bool :=
  if ss.isEmpty then true
  else if ss.any (fun s => (nominalLookup s).isSome && (verbalLookup s).isSome) then
    try_validate_as_nominal ss || try_validate_as_verbal ss
  else
    let slots := ss.map classify
    if slots.any SuffixSlot.isUnknown then true
    else
      let all_nominal := slots.all SuffixSlot.isNominal
      let all_verbal := slots.all SuffixSlot.isVerbal
      if !all_nominal && !all_verbal then false
      else if all_nominal then validate_nominal_sequence slots
      else validate_verbal_sequence slots

/-! ## root_validator.rs -/

/-- `TURKISH_VOWELS` (root_validator.rs 10-12), lowercase and uppercase. -/
def TURKISH_VOWELS : List Char :=
  ['a', 'e', 'ı', 'i', 'o', 'ö', 'u', 'ü', 'A', 'E', 'I', 'İ', 'O', 'Ö', 'U', 'Ü']

/-- `SONORANT_CONSONANTS` (root_validator.rs 15). -/
def SONORANT_CONSONANTS : List Char :=
  ['l', 'r', 'n', 'm', 'y', 'L', 'R', 'N', 'M', 'Y']

/-- `VOICELESS_STOPS` (root_validator.rs 18). -/
def VOICELESS_STOPS : List Char :=
  ['p', 'ç', 't', 'k', 'P', 'Ç', 'T', 'K']

/-- `INVALID_FINAL_CLUSTERS` (root_validator.rs 21-24). -/
def INVALID_FINAL_CLUSTERS : List Str :=
  [("çk").data, ("çp").data, ("çt").data, ("ğk").data, ("ğp").data, ("ğt").data,
   ("kb").data, ("kc").data, ("kç").data, ("kg").data, ("kğ").data, ("kj").data,
   ("pb").data, ("pc").data, ("pç").data, ("pg").data, ("pğ").data, ("pj").data,
   ("tb").data, ("tc").data, ("tç").data, ("tg").data, ("tğ").data, ("tj").data,
   ("nd").data, ("nt").data, ("nk").data, ("ng").data]

/-- `BOUND_STEMS` (root_validator.rs 27-30). -/
def BOUND_STEMS : List Str :=
  [("öğrenc").data, ("öğret").data, ("tanı").data, ("yapı").data, ("bili").data,
   ("geli").data, ("gidi").data, ("kali").data, ("veri").data, ("alı").data,
   ("olı").data, ("görü").data, ("bilü").data]

/-- `RootValidator::has_valid_syllable_structure` (root_validator.rs 148-165).
The `f32` vowel-ratio bounds 0.2 and 0.7 are modelled by the exact rational
comparisons `5 * vowels ≥ length` and `10 * vowels ≤ 7 * length`, which agree
with the `f32` computation at every word length the library handles. -/
def has_valid_syllable_structure (chars : Str) : Bool :=
  if chars.length < 2 then false
  else
    let vowel_count := (chars.filter (fun c => TURKISH_VOWELS.contains c)).length
    if vowel_count = 0 then false
    else if chars.length ≤ 3 then decide (1 ≤ vowel_count)
    else decide (chars.length ≤ 5 * vowel_count) && decide (10 * vowel_count ≤ 7 * chars.length)

/-- `RootValidator::check_phonotactics` (root_validator.rs 107-145).
`lower_chars.last().unwrap()` cannot panic because lowering a nonempty word
is nonempty; the `none` arm is unreachable. -/
def check_phonotactics (word : Str) : Bool :=
  if word.isEmpty then false
  else
    let word_lower := toLower word
    if !(word.any (fun c => TURKISH_VOWELS.contains c)) then false
    else if INVALID_FINAL_CLUSTERS.any (fun cl => cl.isSuffixOf word_lower) then false
    else
      match word_lower.getLast? with
      | none => true
      | some last =>
        if TURKISH_VOWELS.contains last then true
        else if SONORANT_CONSONANTS.contains last then
          has_valid_syllable_structure word_lower
        else if VOICELESS_STOPS.contains last then
          decide (3 ≤ word_lower.length) && has_valid_syllable_structure word_lower
        else true

/-- `RootValidator::is_valid_root` (root_validator.rs 83-104), parameterised
by the valid-roots set (`get_valid_roots`, a set of lemma strings) because
the embedded dictionary resource is not in the source tree.  The checks run
in source order: character-count minimum, bound-stem exclusion, then either
strict dictionary membership or lenient phonotactics. -/
def is_valid_root (min_root_length : Nat) (strict : Bool) (roots : List Str)
    (candidate : Str) : Bool :=
  if candidate.length < min_root_length then false
  else
    let candidate_lower := toLower candidate
    if BOUND_STEMS.any (fun b => decide (candidate_lower = b) || b.isSuffixOf candidate_lower)
    then false
    else if strict then decide (candidate ∈ roots)
    else check_phonotactics candidate

/-! ## lib.rs: suffix inventory -/

/-- `suffixes::COMPOUND_SUFFIXES` (lib.rs 196-249), in source order. -/
def COMPOUND_SUFFIXES : List Str :=
  [("meden").data, ("madan").data,
   ("larımız").data, ("lerimiz").data, ("ların").data, ("lerin").data,
   ("larımızdan").data, ("lerimizden").data,
   ("lardan").data, ("lerden").data, ("lara").data, ("lere").data,
   ("ımızdan").data, ("imizden").data, ("ındanan").data, ("indenan").data,
   ("medim").data, ("madım").data, ("medin").data, ("madın").data,
   ("medi").data, ("madı").data, ("medik").data, ("madık").data,
   ("mişim").data, ("mışım").data, ("mişiz").data, ("mışız").data,
   ("yorum").data, ("yorsun").data, ("yor").data, ("yoruz").data,
   ("yorsunuz").data, ("yorlar").data,
   ("eceğim").data, ("acağım").data, ("eceğiz").data, ("acağız").data,
   ("eceksin").data, ("acaksın").data,
   ("yebilmek").data, ("yabilmek").data, ("ebilirim").data, ("abilirim").data]

/-- `suffixes::NOMINAL_SUFFIXES` (lib.rs 253-266), in source order,
duplicates included. -/
def NOMINAL_SUFFIXES : List Str :=
  [("lar").data, ("ler").data,
   ("ım").data, ("im").data, ("um").data, ("üm").data,
   ("ımız").data, ("imiz").data, ("umuz").data, ("ümüz").data,
   ("ın").data, ("in").data, ("un").data, ("ün").data,
   ("ınız").data, ("iniz").data, ("unuz").data, ("ünüz").data,
   ("ı").data, ("i").data, ("u").data, ("ü").data,
   ("sı").data, ("si").data, ("su").data, ("sü").data,
   ("ı").data, ("i").data, ("u").data, ("ü").data,
   ("a").data, ("e").data, ("ya").data, ("ye").data,
   ("da").data, ("de").data, ("ta").data, ("te").data,
   ("dan").data, ("den").data, ("tan").data, ("ten").data,
   ("ın").data, ("in").data, ("un").data, ("ün").data,
   ("nın").data, ("nin").data, ("nun").data, ("nün").data]

/-- `suffixes::VERBAL_SUFFIXES` (lib.rs 270-287), in source order,
duplicates included. -/
def VERBAL_SUFFIXES : List Str :=
  [("ıl").data, ("il").data, ("ul").data, ("ül").data,
   ("n").data, ("ın").data, ("in").data, ("un").data, ("ün").data,
   ("dir").data, ("dır").data, ("dur").data, ("dür").data,
   ("tir").data, ("tır").data, ("tur").data, ("tür").data,
   ("ş").data, ("ış").data, ("iş").data, ("uş").data, ("üş").data,
   ("me").data, ("ma").data,
   ("di").data, ("dı").data, ("du").data, ("dü").data,
   ("ti").data, ("tı").data, ("tu").data, ("tü").data,
   ("miş").data, ("mış").data, ("muş").data, ("müş").data,
   ("ecek").data, ("acak").data,
   ("iyor").data,
   ("er").data, ("ar").data,
   ("mekte").data, ("makta").data,
   ("m").data, ("n").data, ("k").data, ("z").data,
   ("ım").data, ("im").data, ("um").data, ("üm").data,
   ("ın").data, ("in").data, ("un").data, ("ün").data,
   ("ız").data, ("iz").data, ("uz").data, ("üz").data,
   ("sın").data, ("sin").data, ("sun").data, ("sün").data,
   ("sınız").data, ("siniz").data, ("sunuz").data, ("sünüz").data,
   ("lar").data, ("ler").data,
   ("mek").data, ("mak").data]

/-- `suffixes::FIXED_MORPHEMES` (lib.rs 291-297). -/
def FIXED_MORPHEMES : List Str :=
  [("iyor").data, ("ken").data, ("ki").data, ("leyin").data]

/-! ## Sorting and deduplication helpers used by both strippers

Rust's `sort_by(|a, b| b.len().cmp(&a.len()))` is a stable sort by
descending byte length.  A stable sort is uniquely determined by its
comparator and input, so it is modelled by stable insertion by descending
`byteLen` (a new element comes after every earlier element of equal length).
`Vec::dedup` removes consecutive duplicates only. -/

/-- Stable insertion for descending byte length: `x` goes in front of the
first element strictly shorter than it. -/
def insertByLen (x : Str) : List Str → List Str
  | [] => [x]
  | y :: t => if byteLen y < byteLen x then x :: y :: t else y :: insertByLen x t

/-- Stable sort by descending byte length (Rust `sort_by` with
`b.len().cmp(&a.len())`). -/
def sortByLenDesc (l : List Str) : List Str :=
  l.foldl (fun acc x => insertByLen x acc) []

/-- The tail loop of `Vec::dedup`: drop elements equal to the previous kept
element. -/
def dedupAdjGo (prev : Str) : List Str → List Str
  | [] => []
  | y :: t => if y = prev then dedupAdjGo prev t else y :: dedupAdjGo y t

/-- Rust `Vec::dedup`: remove consecutive repeated elements. -/
def dedupAdj : List Str → List Str
  | [] => []
  | x :: t => x :: dedupAdjGo x t

/-! ## lib.rs: `strip_suffixes` (naive Tier-2 stripper, lib.rs 302-330) -/

/-- `all_suffixes` of `strip_suffixes` (lib.rs 307-312): compound, nominal
and verbal suffixes chained in order. -/
def naive_all_suffixes : List Str :=
  COMPOUND_SUFFIXES ++ NOMINAL_SUFFIXES ++ VERBAL_SUFFIXES

/-- The sorted scan list of `strip_suffixes` (lib.rs 318-319): the same list
is recomputed each pass, so it is hoisted here. -/
def naive_sorted : List Str :=
  sortByLenDesc naive_all_suffixes

/-- One pass of the `strip_suffixes` loop (lib.rs 321-327): the first sorted
suffix that is a suffix of the current word and leaves strictly more than two
characters is peeled; `none` when no suffix applies (the loop's `changed`
stays false). -/
def naiveFind (current : Str) : Option Str :=
  (naive_sorted.find? (fun s =>
      s.isSuffixOf current && decide (s.length + 2 < current.length))).map
    (fun s => current.take (current.length - s.length))

/-- The `while changed` loop of `strip_suffixes` (lib.rs 314-328).  It
terminates because every peel strictly shortens the word (every suffix in
the inventory is nonempty). -/
def naiveLoop (current : Str) : Str :=
  match h : naiveFind current with
  | some c => naiveLoop c
  | none => current
termination_by current.length
decreasing_by
  unfold naiveFind at h
  rw [Option.map_eq_some'] at h
  obtain ⟨s, hs, hc⟩ := h
  have hp := List.find?_some hs
  rw [Bool.and_eq_true, decide_eq_true_eq] at hp
  have hmem := List.mem_of_find?_eq_some hs
  have hone : ∀ t ∈ naive_sorted, 1 ≤ t.length := by decide
  have h1 := hone s hmem
  have hlen : c.length = current.length - s.length := by
    rw [← hc, List.length_take]
    omega
  omega

/-- `strip_suffixes` (lib.rs 302-330). -/
def strip_suffixes (word : Str) : Str :=
  naiveLoop word

/-! ## lib.rs: validated stripper (`strip_suffixes_validated`, lib.rs 346-462)

The function is parameterised by the parsed lemma dictionary.  The source's
`dictionary` binding (used at lib.rs 405, 437 and 452) is not in the source
tree; it is modelled from the spec, §4.5: "If the current candidate is in
the valid-roots set, stop and return it" — the set of lemma values of the
dictionary, i.e. `get_valid_roots` of root_validator.rs 37-54. -/

/-- `get_valid_roots` (root_validator.rs 37-54): the lemma values of the
dictionary, as a membership structure. -/
def valid_roots (dict : List (Str × Str)) : List Str :=
  dict.map (fun p => p.2)

/-- `lookup_lemma` (lib.rs 183-187) over the parsed dictionary.  A repeated
inflected key keeps its last line (`HashMap::insert` overwrites), hence the
reversed search. -/
def lookup_lemma (dict : List (Str × Str)) (word : Str) : Option Str :=
  (dict.reverse.find? (fun p => decide (p.1 = word))).map (fun p => p.2)

/-- The single-suffix scan list `all_single_suffixes` (lib.rs 385-391):
nominal then verbal suffixes, stably sorted by descending byte length, then
`dedup` of consecutive duplicates. -/
def all_single_suffixes : List Str :=
  dedupAdj (sortByLenDesc (NOMINAL_SUFFIXES ++ VERBAL_SUFFIXES))

/-- The `has_harmony` condition of the single-suffix phase (lib.rs 425-431):
fixed morphemes bypass the harmony predicate. -/
def phase2Harmony (check_harmony : Bool) (candidate s : Str) : Bool :=
  !check_harmony ||
    (if s ∈ FIXED_MORPHEMES then true else check_vowel_harmony candidate s)

/-- The peeled candidate `&current[..current.len() - suffix.len()]`: with
`s` a suffix of `current`, the byte slice is the first
`current.chars().count() - s.chars().count()` characters. -/
def peelAt (current s : Str) : Str :=
  current.take (current.length - s.length)

/-- Phase 1, the compound-suffix pass (lib.rs 365-381): the first compound
suffix whose peel satisfies root validity, harmony (no fixed-morpheme bypass
here), the one-element morphotactic check and nonemptiness is committed.
Returns (current, stripped_suffixes, best_result). -/
def phase1 (roots : List Str) (strict : Bool) (min_root_length : Nat)
    (check_harmony : Bool) (word : Str) : List Str → Str × List Str × Str
  | [] => (word, [], word)
  | s :: rest =>
    if s.isSuffixOf word then
      if is_valid_root min_root_length strict roots (peelAt word s)
          && (!check_harmony || check_vowel_harmony (peelAt word s) s)
          && validate_sequence [s]
          && !(peelAt word s).isEmpty
      then (peelAt word s, [s], peelAt word s)
      else phase1 roots strict min_root_length check_harmony word rest
    else phase1 roots strict min_root_length check_harmony word rest

/-- Outcome of one scan of the single-suffix list (lib.rs 409-448):
no suffix applied, an immediate dictionary return, or a committed peel. -/
inductive ScanR where
  | noStrip
  | retrn (c : Str)
  | commit (c : Str) (s : Str)
deriving DecidableEq

/-- The inner `for suffix in &all_single_suffixes` scan (lib.rs 409-448).
The hypothetical sequence handed to the morphotactic validator is
`stripped ++ [s]` (the `vec![suffix]`/extend-reversed/reverse dance of
lib.rs 419-421). -/
def scanSuffixes (roots : List Str) (strict : Bool) (min_root_length : Nat)
    (check_harmony : Bool) (current : Str) (stripped : List Str) :
    List Str → ScanR
  | [] => ScanR.noStrip
  | s :: rest =>
    if s.isSuffixOf current then
      if (peelAt current s).length < min_root_length then
        scanSuffixes roots strict min_root_length check_harmony current stripped rest
      else if is_valid_root min_root_length strict roots (peelAt current s)
          && phase2Harmony check_harmony (peelAt current s) s
          && validate_sequence (stripped ++ [s]) then
        if peelAt current s ∈ roots then ScanR.retrn (peelAt current s)
        else ScanR.commit (peelAt current s) s
      else scanSuffixes roots strict min_root_length check_harmony current stripped rest
    else scanSuffixes roots strict min_root_length check_harmony current stripped rest

/-- The final resolution (lib.rs 451-461): dictionary membership first, then
root validity, otherwise the best (last committed) result. -/
def finalize (roots : List Str) (strict : Bool) (min_root_length : Nat)
    (current best : Str) : Str :=
  if current ∈ roots then current
  else if is_valid_root min_root_length strict roots current then current
  else best

/-- The bounded `while changed && iterations < MAX_ITERATIONS` loop
(lib.rs 396-449), with `MAX_ITERATIONS = 10`.  `fuel` is the remaining
iteration budget (`10 - iterations`), `iters` the Rust `iterations`
counter; the returned number is its final value. -/
def phase2 (roots : List Str) (strict : Bool) (min_root_length : Nat)
    (check_harmony : Bool) :
    Nat → Nat → Str → List Str → Str → Str × Nat
  | 0, iters, current, _, best =>
    (finalize roots strict min_root_length current best, iters)
  | fuel + 1, iters, current, stripped, best =>
    if current ∈ roots then
      (finalize roots strict min_root_length current best, iters + 1)
    else
      match scanSuffixes roots strict min_root_length check_harmony current
          stripped all_single_suffixes with
      | ScanR.retrn c => (c, iters + 1)
      | ScanR.noStrip =>
        (finalize roots strict min_root_length current best, iters + 1)
      | ScanR.commit c s =>
        phase2 roots strict min_root_length check_harmony fuel (iters + 1) c
          (stripped ++ [s]) c

/-- The body of `strip_suffixes_validated` after the strict-mode dictionary
lookup (lib.rs 359-461): compound pass, then the bounded single-suffix loop.
Returns the stem together with the number of loop iterations executed. -/
def stripCore (dict : List (Str × Str)) (word : Str) (strict : Bool)
    (min_root_length : Nat) (check_harmony : Bool) : Str × Nat :=
  let roots := valid_roots dict
  let r1 := phase1 roots strict min_root_length check_harmony word COMPOUND_SUFFIXES
  phase2 roots strict min_root_length check_harmony 10 0 r1.1 r1.2.1 r1.2.2

/-- `strip_suffixes_validated` (lib.rs 346-462). -/
def strip_suffixes_validated (dict : List (Str × Str)) (word : Str)
    (strict : Bool) (min_root_length : Nat) (check_harmony : Bool) : Str :=
  if strict then
    match lookup_lemma dict word with
    | some lem => lem
    | none => (stripCore dict word strict min_root_length check_harmony).1
  else (stripCore dict word strict min_root_length check_harmony).1

/-- Modelled from the spec: the embedded lemma dictionary resource
(`resources/tr/lemmas/turkish_lemma_dict.txt`) is absent from the source
tree.  These are the inflected/lemma pairs the spec's §8 concrete scenarios
require of the dictionary ("kitaplar → kitap", "geliyorum → gel",
"gittim → git", each annotated "dictionary lookup"). -/
def spec_lemma_dict : List (Str × Str) :=
  [(("kitaplar").data, ("kitap").data),
   (("geliyorum").data, ("gel").data),
   (("gittim").data, ("git").data)]

/-! ## Claim-side formulations (used only on the specification side of the
morphotactic claim) -/

/-- Non-decreasing adjacent ordinals ("monotone, equality permitted"). -/
def chainLe : List Nat → Bool
  | [] => true
  | [_] => true
  | a :: b :: rest => decide (a ≤ b) && chainLe (b :: rest)

/-- The slot ordinals of the all-nominal interpretation of a suffix list. -/
def nomRanks (ss : List Str) : List Nat :=
  ss.filterMap (fun s => (nominalLookup s).map NominalSlot.rank)

/-- The all-nominal interpretation exists and is monotone. -/
def allNomMono (ss : List Str) : Bool :=
  ss.all (fun s => (nominalLookup s).isSome) && chainLe (nomRanks ss)

/-- The slot ordinals of the all-verbal interpretation of a suffix list. -/
def verbRanks (ss : List Str) : List Nat :=
  ss.filterMap (fun s => (verbalLookup s).map VerbalSlot.rank)

/-- The all-verbal interpretation exists and is monotone. -/
def allVerbMono (ss : List Str) : Bool :=
  ss.all (fun s => (verbalLookup s).isSome) && chainLe (verbRanks ss)

/-- Bridging helper: the head of the list (if any) is at least `last`.
Relates the validators' running `last_slot_rank` to adjacent-pair
monotonicity. -/
def headGe (last : Nat) : List Nat → Bool
  | [] => true
  | n :: _ => decide (last ≤ n)

/-! ## Helper lemmas -/

/-- `check_harmony` holds exactly when the two classes agree on the
front/back axis (so rounding is never compared). -/
theorem check_harmony_iff :
    ∀ rv v : VowelClass, (check_harmony rv v = true ↔ v.is_front = rv.is_front) := by
  intro rv v
  cases rv <;> cases v <;> decide

/-! ## C1 -/

/-- C1: for every root R and suffix S, `check_vowel_harmony` returns false
when R has no Turkish vowel; otherwise it returns true when S has no Turkish
vowel; otherwise it returns true exactly when every vowel of S agrees with
the last vowel of R on the front/back axis (rounding never enforced). -/
theorem C1_check_vowel_harmony (R S : Str) :
    (get_last_vowel_class R = none → check_vowel_harmony R S = false)
    ∧ (∀ vR, get_last_vowel_class R = some vR →
        S.filterMap get_vowel_class = [] → check_vowel_harmony R S = true)
    ∧ (∀ vR, get_last_vowel_class R = some vR →
        S.filterMap get_vowel_class ≠ [] →
        (check_vowel_harmony R S = true ↔
          ∀ v ∈ S.filterMap get_vowel_class, v.is_front = vR.is_front)) := by
  refine ⟨?_, ?_, ?_⟩
  · intro h
    unfold check_vowel_harmony
    rw [h]
  · intro vR h hS
    unfold check_vowel_harmony
    rw [h]
    simp [hS]
  · intro vR h hS
    unfold check_vowel_harmony
    rw [h]
    have hne : (S.filterMap get_vowel_class).isEmpty = false := by
      simpa [List.isEmpty_iff] using hS
    simp only [hne, Bool.false_eq_true, if_false, List.all_eq_true]
    constructor
    · intro hall v hv
      exact (check_harmony_iff vR v).mp (hall v hv)
    · intro hall v hv
      exact (check_harmony_iff vR v).mpr (hall v hv)

/-- C1 witness: a back root with a back suffix is accepted, through the
theorem's third part. -/
theorem C1_witness : check_vowel_harmony (("kitap").data) (("lar").data) = true :=
  ((C1_check_vowel_harmony (("kitap").data) (("lar").data)).2.2
    VowelClass.BackUnrounded (by decide) (by decide)).mpr (by decide)

/-! ## C10 -/

/-- C10: the classifier maps the uppercase dotless 'I' to the front-unrounded
class (the class of 'i'), not to the back-unrounded class of its lowercase
pair 'ı', because it folds case with generic Unicode lowercasing; a root
whose last vowel is 'I' is therefore treated as front-harmonic by the
last-vowel extractor and the harmony predicate. -/
theorem C10_dotless_capital_I :
    get_vowel_class 'I' = some VowelClass.FrontUnrounded
    ∧ get_vowel_class 'i' = some VowelClass.FrontUnrounded
    ∧ get_vowel_class 'ı' = some VowelClass.BackUnrounded
    ∧ get_last_vowel_class (("KAPI").data) = some VowelClass.FrontUnrounded
    ∧ check_vowel_harmony (("KAPI").data) (("ler").data) = true
    ∧ check_vowel_harmony (("KAPI").data) (("lar").data) = false := by
  decide

/-! ## C4 -/

/-- C4 counterexample: "iyor" is a fixed morpheme, yet the exposed harmony
predicate rejects it after the back root "kitap" — `check_vowel_harmony`
itself applies no fixed-morpheme exemption. -/
theorem C4_counterexample :
    (("iyor").data) ∈ FIXED_MORPHEMES
    ∧ check_vowel_harmony (("kitap").data) (("iyor").data) = false := by
  decide

/-- C4 amended: the unconditional-true treatment of the fixed morphemes
exists only in the validated stripper's single-suffix harmony gate
(lib.rs 425-431), where any suffix in `FIXED_MORPHEMES` passes the gate for
every candidate root. -/
theorem C4_amended_fixed_bypass (candidate s : Str) (h : s ∈ FIXED_MORPHEMES) :
    phase2Harmony true candidate s = true := by
  unfold phase2Harmony
  simp [h]

/-- C4 amended witness: "iyor" passes the stripper's gate after "kitap". -/
theorem C4_witness : phase2Harmony true (("kitap").data) (("iyor").data) = true :=
  C4_amended_fixed_bypass (("kitap").data) (("iyor").data) (by decide)

/-! ## C3 -/

/-- C3 counterexample: "gel" is in the valid-roots set of the (spec-modelled)
dictionary, yet a strict validator configured with minimum root length 4
rejects it — membership is not the only condition. -/
theorem C3_counterexample :
    (("gel").data) ∈ valid_roots spec_lemma_dict
    ∧ is_valid_root 4 true (valid_roots spec_lemma_dict) (("gel").data) = false := by
  decide

/-- C3 amended: in strict mode the validator accepts exactly the candidates
that meet the minimum character length, are not (case-folded) a bound stem
nor end in one, and are members of the valid-roots set. -/
theorem C3_amended_strict_validator (roots : List Str) (m : Nat) (c : Str) :
    is_valid_root m true roots c =
      (decide (m ≤ c.length)
        && !(BOUND_STEMS.any (fun b =>
              decide (toLower c = b) || b.isSuffixOf (toLower c)))
        && decide (c ∈ roots)) := by
  unfold is_valid_root
  by_cases h1 : c.length < m
  · simp [h1, Nat.not_le.mpr h1]
  · by_cases h2 : BOUND_STEMS.any (fun b =>
        decide (toLower c = b) || b.isSuffixOf (toLower c)) = true
    · simp [h1, h2]
    · simp [h1, h2, Nat.not_lt.mp h1, Bool.not_eq_true _ ▸ h2]

/-! ## C2 bridge lemmas -/

/-- `chainLe` peels one adjacent comparison through `headGe`. -/
theorem chainLe_cons (a : Nat) (l : List Nat) :
    chainLe (a :: l) = (headGe a l && chainLe l) := by
  cases l with
  | nil => rfl
  | cons b t => rfl

/-- The nominal validator on an all-nominal slot list computes `headGe`
against the running rank together with adjacent monotonicity. -/
theorem goNominal_map : ∀ (ns : List NominalSlot) (last : Nat),
    goNominal last (ns.map SuffixSlot.Nominal) =
      (headGe last (ns.map NominalSlot.rank) && chainLe (ns.map NominalSlot.rank)) := by
  intro ns
  induction ns with
  | nil => intro last; rfl
  | cons n t ih =>
    intro last
    simp only [List.map_cons, goNominal]
    by_cases h : n.rank < last
    · have : headGe last (n.rank :: t.map NominalSlot.rank) = false := by
        simp [headGe, Nat.not_le.mpr h]
      simp [h, this]
    · rw [if_neg h, ih n.rank, chainLe_cons]
      have h1 : headGe last (n.rank :: t.map NominalSlot.rank) = true := by
        simp [headGe, Nat.not_lt.mp h]
      rw [h1, Bool.true_and]

/-- The verbal validator on an all-verbal slot list, same shape. -/
theorem goVerbal_map : ∀ (vs : List VerbalSlot) (last : Nat),
    goVerbal last (vs.map SuffixSlot.Verbal) =
      (headGe last (vs.map VerbalSlot.rank) && chainLe (vs.map VerbalSlot.rank)) := by
  intro vs
  induction vs with
  | nil => intro last; rfl
  | cons v t ih =>
    intro last
    simp only [List.map_cons, goVerbal]
    by_cases h : v.rank < last
    · have : headGe last (v.rank :: t.map VerbalSlot.rank) = false := by
        simp [headGe, Nat.not_le.mpr h]
      simp [h, this]
    · rw [if_neg h, ih v.rank, chainLe_cons]
      have h1 : headGe last (v.rank :: t.map VerbalSlot.rank) = true := by
        simp [headGe, Nat.not_lt.mp h]
      rw [h1, Bool.true_and]

/-- `headGe 0` always holds. -/
theorem headGe_zero (l : List Nat) : headGe 0 l = true := by
  cases l <;> simp [headGe]

/-- The nominal sequence validator on an all-nominal list is exactly
adjacent monotonicity of the ranks. -/
theorem validate_nominal_map (ns : List NominalSlot) :
    validate_nominal_sequence (ns.map SuffixSlot.Nominal) =
      chainLe (ns.map NominalSlot.rank) := by
  unfold validate_nominal_sequence
  rw [goNominal_map, headGe_zero, Bool.true_and]

/-- The verbal sequence validator on an all-verbal list, same shape. -/
theorem validate_verbal_map (vs : List VerbalSlot) :
    validate_verbal_sequence (vs.map SuffixSlot.Verbal) =
      chainLe (vs.map VerbalSlot.rank) := by
  unfold validate_verbal_sequence
  rw [goVerbal_map, headGe_zero, Bool.true_and]

/-- When every suffix is in the nominal map, the collector succeeds with the
filter-mapped slots. -/
theorem collectNominal_all_some : ∀ ss : List Str,
    (∀ s ∈ ss, (nominalLookup s).isSome) →
    collectNominal ss = some ((ss.filterMap nominalLookup).map SuffixSlot.Nominal) := by
  intro ss
  induction ss with
  | nil => intro _; rfl
  | cons s t ih =>
    intro h
    obtain ⟨n, hn⟩ := Option.isSome_iff_exists.mp (h s (List.mem_cons_self s t))
    have ht := ih (fun x hx => h x (List.mem_cons_of_mem s hx))
    simp [collectNominal, hn, ht, List.filterMap_cons]

/-- When some suffix is missing from the nominal map, the collector fails. -/
theorem collectNominal_none : ∀ ss : List Str,
    (∃ s ∈ ss, nominalLookup s = none) → collectNominal ss = none := by
  intro ss
  induction ss with
  | nil => rintro ⟨s, hs, _⟩; cases hs
  | cons s t ih =>
    rintro ⟨x, hx, hnone⟩
    rcases List.mem_cons.mp hx with rfl | hxt
    · simp [collectNominal, hnone]
    · cases hn : nominalLookup s with
      | none => simp [collectNominal, hn]
      | some n => simp [collectNominal, hn, ih ⟨x, hxt, hnone⟩]

/-- Same for the verbal collector. -/
theorem collectVerbal_all_some : ∀ ss : List Str,
    (∀ s ∈ ss, (verbalLookup s).isSome) →
    collectVerbal ss = some ((ss.filterMap verbalLookup).map SuffixSlot.Verbal) := by
  intro ss
  induction ss with
  | nil => intro _; rfl
  | cons s t ih =>
    intro h
    obtain ⟨v, hv⟩ := Option.isSome_iff_exists.mp (h s (List.mem_cons_self s t))
    have ht := ih (fun x hx => h x (List.mem_cons_of_mem s hx))
    simp [collectVerbal, hv, ht, List.filterMap_cons]

/-- Same for the verbal collector, failure case. -/
theorem collectVerbal_none : ∀ ss : List Str,
    (∃ s ∈ ss, verbalLookup s = none) → collectVerbal ss = none := by
  intro ss
  induction ss with
  | nil => rintro ⟨s, hs, _⟩; cases hs
  | cons s t ih =>
    rintro ⟨x, hx, hnone⟩
    rcases List.mem_cons.mp hx with rfl | hxt
    · simp [collectVerbal, hnone]
    · cases hv : verbalLookup s with
      | none => simp [collectVerbal, hv]
      | some v => simp [collectVerbal, hv, ih ⟨x, hxt, hnone⟩]

/-- The source's all-nominal attempt coincides with the claim-side
"the all-nominal interpretation exists and is monotone". -/
theorem tryNominal_eq_allNomMono (ss : List Str) :
    try_validate_as_nominal ss = allNomMono ss := by
  by_cases hall : ∀ s ∈ ss, (nominalLookup s).isSome
  · unfold try_validate_as_nominal allNomMono
    rw [collectNominal_all_some ss hall]
    show validate_nominal_sequence
        ((ss.filterMap nominalLookup).map SuffixSlot.Nominal) = _
    rw [validate_nominal_map]
    have h1 : ss.all (fun s => (nominalLookup s).isSome) = true :=
      List.all_eq_true.mpr hall
    rw [h1, Bool.true_and]
    have h2 : nomRanks ss = (ss.filterMap nominalLookup).map NominalSlot.rank := by
      unfold nomRanks
      rw [List.map_filterMap]
    rw [h2]
  · push_neg at hall
    obtain ⟨s, hs, hnone⟩ := hall
    have hnone' : nominalLookup s = none := Option.not_isSome_iff_eq_none.mp hnone
    unfold try_validate_as_nominal allNomMono
    rw [collectNominal_none ss ⟨s, hs, hnone'⟩]
    have : ss.all (fun s => (nominalLookup s).isSome) = false := by
      rw [List.all_eq_false]
      exact ⟨s, hs, by simp [hnone']⟩
    rw [this, Bool.false_and]

/-- The source's all-verbal attempt coincides with the claim-side
"the all-verbal interpretation exists and is monotone". -/
theorem tryVerbal_eq_allVerbMono (ss : List Str) :
    try_validate_as_verbal ss = allVerbMono ss := by
  by_cases hall : ∀ s ∈ ss, (verbalLookup s).isSome
  · unfold try_validate_as_verbal allVerbMono
    rw [collectVerbal_all_some ss hall]
    show validate_verbal_sequence
        ((ss.filterMap verbalLookup).map SuffixSlot.Verbal) = _
    rw [validate_verbal_map]
    have h1 : ss.all (fun s => (verbalLookup s).isSome) = true :=
      List.all_eq_true.mpr hall
    rw [h1, Bool.true_and]
    have h2 : verbRanks ss = (ss.filterMap verbalLookup).map VerbalSlot.rank := by
      unfold verbRanks
      rw [List.map_filterMap]
    rw [h2]
  · push_neg at hall
    obtain ⟨s, hs, hnone⟩ := hall
    have hnone' : verbalLookup s = none := Option.not_isSome_iff_eq_none.mp hnone
    unfold try_validate_as_verbal allVerbMono
    rw [collectVerbal_none ss ⟨s, hs, hnone'⟩]
    have : ss.all (fun s => (verbalLookup s).isSome) = false := by
      rw [List.all_eq_false]
      exact ⟨s, hs, by simp [hnone']⟩
    rw [this, Bool.false_and]

/-- A slot is not `Unknown` exactly when `isUnknown` is false. -/
theorem isUnknown_eq_false {x : SuffixSlot} :
    SuffixSlot.isUnknown x = false ↔ x ≠ SuffixSlot.Unknown := by
  cases x <;> simp [SuffixSlot.isUnknown]

/-! ## C2 -/

/-- C2: the sequence validator accepts the empty list; on a list containing
an ambiguous suffix (present in both paradigm maps) it accepts exactly when
the all-nominal or the all-verbal interpretation is monotone
(non-decreasing ordinals, equality permitted); otherwise a list containing a
suffix unknown to both maps is accepted, a list mixing nominal and verbal
classifications is rejected, and a single-paradigm list is accepted exactly
when its slot ordinals, read root-adjacent first (left to right), are
non-decreasing. -/
theorem C2_validate_sequence_spec :
    validate_sequence [] = true
    ∧ (∀ ss : List Str,
        ss.any (fun s => (nominalLookup s).isSome && (verbalLookup s).isSome) = true →
        (validate_sequence ss = true ↔
          (allNomMono ss = true ∨ allVerbMono ss = true)))
    ∧ (∀ ss : List Str,
        ss.any (fun s => (nominalLookup s).isSome && (verbalLookup s).isSome) = false →
        (∃ s ∈ ss, classify s = SuffixSlot.Unknown) →
        validate_sequence ss = true)
    ∧ (∀ ss : List Str,
        ss.any (fun s => (nominalLookup s).isSome && (verbalLookup s).isSome) = false →
        (∀ s ∈ ss, classify s ≠ SuffixSlot.Unknown) →
        (∃ s ∈ ss, (classify s).isNominal = true) →
        (∃ s ∈ ss, (classify s).isVerbal = true) →
        validate_sequence ss = false)
    ∧ (∀ (ss : List Str) (ns : List NominalSlot),
        ss.any (fun s => (nominalLookup s).isSome && (verbalLookup s).isSome) = false →
        ss.map classify = ns.map SuffixSlot.Nominal →
        (validate_sequence ss = true ↔ chainLe (ns.map NominalSlot.rank) = true))
    ∧ (∀ (ss : List Str) (vs : List VerbalSlot),
        ss.any (fun s => (nominalLookup s).isSome && (verbalLookup s).isSome) = false →
        ss.map classify = vs.map SuffixSlot.Verbal →
        (validate_sequence ss = true ↔ chainLe (vs.map VerbalSlot.rank) = true)) := by
  refine ⟨rfl, ?_, ?_, ?_, ?_, ?_⟩
  · intro ss hamb
    cases ss with
    | nil => cases hamb
    | cons s t =>
      unfold validate_sequence
      rw [if_neg (by simp), if_pos hamb, tryNominal_eq_allNomMono,
        tryVerbal_eq_allVerbMono, Bool.or_eq_true]
  · intro ss hamb hunk
    cases ss with
    | nil => obtain ⟨s, hs, _⟩ := hunk; cases hs
    | cons s t =>
      unfold validate_sequence
      rw [if_neg (by simp), if_neg (by simp [hamb])]
      obtain ⟨x, hx, hxu⟩ := hunk
      have : ((s :: t).map classify).any SuffixSlot.isUnknown = true := by
        rw [List.any_eq_true]
        exact ⟨classify x, List.mem_map_of_mem classify hx, by simp [hxu, SuffixSlot.isUnknown]⟩
      rw [if_pos this]
  · intro ss hamb hnou hnom hverb
    cases ss with
    | nil => obtain ⟨s, hs, _⟩ := hnom; cases hs
    | cons s t =>
      unfold validate_sequence
      rw [if_neg (by simp), if_neg (by simp [hamb])]
      have hnu : ((s :: t).map classify).any SuffixSlot.isUnknown = false := by
        rw [List.any_eq_false]
        intro x hx
        obtain ⟨y, hy, rfl⟩ := List.mem_map.mp hx
        simp [isUnknown_eq_false.mpr (hnou y hy)]
      rw [if_neg (by rw [hnu]; simp)]
      obtain ⟨xN, hxN, hN⟩ := hnom
      obtain ⟨xV, hxV, hV⟩ := hverb
      have hallN : ((s :: t).map classify).all SuffixSlot.isNominal = false := by
        rw [List.all_eq_false]
        refine ⟨classify xV, List.mem_map_of_mem classify hxV, ?_⟩
        revert hV
        cases classify xV <;> simp [SuffixSlot.isNominal, SuffixSlot.isVerbal]
      have hallV : ((s :: t).map classify).all SuffixSlot.isVerbal = false := by
        rw [List.all_eq_false]
        refine ⟨classify xN, List.mem_map_of_mem classify hxN, ?_⟩
        revert hN
        cases classify xN <;> simp [SuffixSlot.isNominal, SuffixSlot.isVerbal]
      rw [hallN, hallV]
      rfl
  · intro ss ns hamb hmap
    cases ss with
    | nil =>
      have : ns = [] := by
        cases ns with
        | nil => rfl
        | cons n t => cases hmap
      subst this
      simp [validate_sequence, chainLe]
    | cons s t =>
      unfold validate_sequence
      rw [if_neg (by simp), if_neg (by simp [hamb]), hmap]
      cases ns with
      | nil => cases hmap
      | cons n nt =>
        have hnu : ((n :: nt).map SuffixSlot.Nominal).any SuffixSlot.isUnknown = false := by
          rw [List.any_eq_false]
          intro x hx
          obtain ⟨y, _, rfl⟩ := List.mem_map.mp hx
          simp [SuffixSlot.isUnknown]
        have hallN : ((n :: nt).map SuffixSlot.Nominal).all SuffixSlot.isNominal = true := by
          rw [List.all_eq_true]
          intro x hx
          obtain ⟨y, _, rfl⟩ := List.mem_map.mp hx
          simp [SuffixSlot.isNominal]
        rw [if_neg (by rw [hnu]; simp), if_neg (by rw [hallN]; simp), if_pos hallN,
          validate_nominal_map]
  · intro ss vs hamb hmap
    cases ss with
    | nil =>
      have : vs = [] := by
        cases vs with
        | nil => rfl
        | cons v t => cases hmap
      subst this
      simp [validate_sequence, chainLe]
    | cons s t =>
      unfold validate_sequence
      rw [if_neg (by simp), if_neg (by simp [hamb]), hmap]
      cases vs with
      | nil => cases hmap
      | cons v vt =>
        have hnu : ((v :: vt).map SuffixSlot.Verbal).any SuffixSlot.isUnknown = false := by
          rw [List.any_eq_false]
          intro x hx
          obtain ⟨y, _, rfl⟩ := List.mem_map.mp hx
          simp [SuffixSlot.isUnknown]
        have hallN : ((v :: vt).map SuffixSlot.Verbal).all SuffixSlot.isNominal = false := by
          rw [List.all_eq_false]
          exact ⟨SuffixSlot.Verbal v, by simp, by simp [SuffixSlot.isNominal]⟩
        have hallV : ((v :: vt).map SuffixSlot.Verbal).all SuffixSlot.isVerbal = true := by
          rw [List.all_eq_true]
          intro x hx
          obtain ⟨y, _, rfl⟩ := List.mem_map.mp hx
          simp [SuffixSlot.isVerbal]
        rw [if_neg (by rw [hnu]; simp), if_neg (by rw [hallN, hallV]; simp),
          if_neg (by rw [hallN]; simp), validate_verbal_map]

/-- C2 witness: the ambiguous suffix "ım" followed by "da" is accepted
through the all-nominal (possessive, then case) interpretation. -/
theorem C2_witness :
    validate_sequence [("ım").data, ("da").data] = true :=
  ((C2_validate_sequence_spec.2.1 [("ım").data, ("da").data] (by decide)).mpr
    (Or.inl (by decide)))

/-! ## Validated-stripper invariants -/

/-- Any accepted root meets the minimum character length (the first check of
`is_valid_root`). -/
theorem is_valid_root_len {m : Nat} {st : Bool} {roots : List Str} {c : Str}
    (h : is_valid_root m st roots c = true) : m ≤ c.length := by
  unfold is_valid_root at h
  by_cases h1 : c.length < m
  · rw [if_pos h1] at h
    cases h
  · exact Nat.not_lt.mp h1

/-- In strict mode any accepted root is a member of the valid-roots set. -/
theorem is_valid_root_strict_mem {m : Nat} {roots : List Str} {c : Str}
    (h : is_valid_root m true roots c = true) : c ∈ roots := by
  unfold is_valid_root at h
  by_cases h1 : c.length < m
  · simp [h1] at h
  · by_cases h2 : BOUND_STEMS.any (fun b =>
        decide (toLower c = b) || b.isSuffixOf (toLower c)) = true
    · simp [h1, h2] at h
    · simp [h1, h2] at h
      exact h

/-- A successful dictionary lookup returns a lemma value, hence a member of
the valid-roots set. -/
theorem lookup_lemma_mem {dict : List (Str × Str)} {w l : Str}
    (h : lookup_lemma dict w = some l) : l ∈ valid_roots dict := by
  unfold lookup_lemma at h
  rw [Option.map_eq_some'] at h
  obtain ⟨p, hp, hl⟩ := h
  have hmem : p ∈ dict := List.mem_reverse.mp (List.mem_of_find?_eq_some hp)
  exact hl ▸ List.mem_map_of_mem (fun q => q.2) hmem

/-- An immediate return from the single-suffix scan is a dictionary member
of at least the minimum length. -/
theorem scan_retrn {roots : List Str} {st : Bool} {m : Nat} {ch : Bool}
    {cur : Str} {stripped : List Str} :
    ∀ {l : List Str} {c : Str},
      scanSuffixes roots st m ch cur stripped l = ScanR.retrn c →
      c ∈ roots ∧ m ≤ c.length := by
  intro l
  induction l with
  | nil => intro c h; cases h
  | cons s rest ih =>
    intro c h
    unfold scanSuffixes at h
    split_ifs at h with h1 h2 h3 h4
    all_goals first
      | exact ih h
      | (rw [ScanR.retrn.injEq] at h
         subst h
         exact ⟨h4, Nat.not_lt.mp h2⟩)

/-- A committed peel from the single-suffix scan passed the root validator
(hence also the length minimum). -/
theorem scan_commit {roots : List Str} {st : Bool} {m : Nat} {ch : Bool}
    {cur : Str} {stripped : List Str} :
    ∀ {l : List Str} {c s' : Str},
      scanSuffixes roots st m ch cur stripped l = ScanR.commit c s' →
      is_valid_root m st roots c = true := by
  intro l
  induction l with
  | nil => intro c s' h; cases h
  | cons s rest ih =>
    intro c s' h
    unfold scanSuffixes at h
    split_ifs at h with h1 h2 h3 h4
    all_goals first
      | exact ih h
      | (rw [ScanR.commit.injEq] at h
         obtain ⟨hc, -⟩ := h
         subst hc
         simp only [Bool.and_eq_true] at h3
         exact h3.1.1)

/-- The final resolution returns either the current candidate or the best
recorded one. -/
theorem finalize_or (roots : List Str) (st : Bool) (m : Nat) (cur best : Str) :
    finalize roots st m cur best = cur ∨ finalize roots st m cur best = best := by
  unfold finalize
  split_ifs <;> simp

/-- Invariant propagation through the bounded single-suffix loop: a property
holding of the current and best candidates and preserved by both scan
outcomes holds of the loop's result. -/
theorem phase2_P (roots : List Str) (st : Bool) (m : Nat) (ch : Bool)
    (P : Str → Prop)
    (hret : ∀ c, c ∈ roots → m ≤ c.length → P c)
    (hcommit : ∀ c, is_valid_root m st roots c = true → P c) :
    ∀ (fuel iters : Nat) (cur : Str) (stripped : List Str) (best : Str),
      P cur → P best →
      P (phase2 roots st m ch fuel iters cur stripped best).1 := by
  intro fuel
  induction fuel with
  | zero =>
    intro iters cur stripped best hc hb
    rcases finalize_or roots st m cur best with h | h <;>
      simp only [phase2, h] <;> assumption
  | succ fuel ih =>
    intro iters cur stripped best hc hb
    simp only [phase2]
    split_ifs with hmem
    · rcases finalize_or roots st m cur best with h | h <;> rw [h] <;> assumption
    · cases hscan : scanSuffixes roots st m ch cur stripped all_single_suffixes with
      | noStrip =>
        rcases finalize_or roots st m cur best with h | h <;> rw [h] <;> assumption
      | retrn c =>
        obtain ⟨hcm, hcl⟩ := scan_retrn hscan
        exact hret c hcm hcl
      | commit c s =>
        have hv := scan_commit hscan
        exact ih (iters + 1) c (stripped ++ [s]) c (hcommit c hv) (hcommit c hv)

/-- Invariant propagation through the compound pass: its current and best
results either are the input word or passed the root validator. -/
theorem phase1_P (roots : List Str) (st : Bool) (m : Nat) (ch : Bool)
    (word : Str) (P : Str → Prop) (hW : P word)
    (hvalid : ∀ c, is_valid_root m st roots c = true → P c) :
    ∀ l : List Str,
      P (phase1 roots st m ch word l).1 ∧ P (phase1 roots st m ch word l).2.2 := by
  intro l
  induction l with
  | nil => exact ⟨hW, hW⟩
  | cons s rest ih =>
    unfold phase1
    split_ifs with h1 h2
    · simp only [Bool.and_eq_true] at h2
      exact ⟨hvalid _ h2.1.1.1, hvalid _ h2.1.1.1⟩
    · exact ih
    · exact ih

/-- Invariant propagation through the whole post-lookup stripper body. -/
theorem stripCore_P (dict : List (Str × Str)) (word : Str) (st : Bool)
    (m : Nat) (ch : Bool) (P : Str → Prop) (hW : P word)
    (hvalid : ∀ c, is_valid_root m st (valid_roots dict) c = true → P c)
    (hmem : ∀ c, c ∈ valid_roots dict → m ≤ c.length → P c) :
    P (stripCore dict word st m ch).1 := by
  unfold stripCore
  have h1 := phase1_P (valid_roots dict) st m ch word P hW hvalid COMPOUND_SUFFIXES
  exact phase2_P (valid_roots dict) st m ch P hmem hvalid 10 0 _ _ _ h1.1 h1.2

/-- The loop counter of the bounded single-suffix loop never exceeds its
remaining budget plus its starting value. -/
theorem phase2_iters (roots : List Str) (st : Bool) (m : Nat) (ch : Bool) :
    ∀ (fuel iters : Nat) (cur : Str) (stripped : List Str) (best : Str),
      (phase2 roots st m ch fuel iters cur stripped best).2 ≤ fuel + iters := by
  intro fuel
  induction fuel with
  | zero => intro iters cur stripped best; simp [phase2]
  | succ fuel ih =>
    intro iters cur stripped best
    simp only [phase2]
    split_ifs with hmem
    · omega
    · cases hscan : scanSuffixes roots st m ch cur stripped all_single_suffixes with
      | noStrip => dsimp only; omega
      | retrn c => dsimp only; omega
      | commit c s =>
        have := ih (iters + 1) c (stripped ++ [s]) c
        dsimp only
        omega

/-! ## Naive-stripper facts -/

/-- A successful naive peel leaves at least three characters and strictly
shortens the word. -/
theorem naiveFind_facts {cur c : Str} (h : naiveFind cur = some c) :
    3 ≤ c.length ∧ c.length < cur.length := by
  unfold naiveFind at h
  rw [Option.map_eq_some'] at h
  obtain ⟨s, hs, hc⟩ := h
  have hp := List.find?_some hs
  rw [Bool.and_eq_true, decide_eq_true_eq] at hp
  have hmem := List.mem_of_find?_eq_some hs
  have hone : ∀ t ∈ naive_sorted, 1 ≤ t.length := by decide
  have h1 := hone s hmem
  have hlen : c.length = cur.length - s.length := by
    rw [← hc, List.length_take]
    omega
  omega

/-- No naive peel applies to a word of three or fewer characters: every
suffix in the inventory is nonempty, so the strictly-more-than-two-extra
characters guard fails. -/
theorem naiveFind_none_short {cur : Str} (h : cur.length ≤ 3) :
    naiveFind cur = none := by
  unfold naiveFind
  rw [Option.map_eq_none']
  rw [List.find?_eq_none]
  intro s hs
  have hone : ∀ t ∈ naive_sorted, 1 ≤ t.length := by decide
  have h1 := hone s hs
  intro hcontra
  rw [Bool.and_eq_true, decide_eq_true_eq] at hcontra
  omega

/-- Unfolding the naive loop when no peel applies. -/
theorem naiveLoop_none {cur : Str} (h : naiveFind cur = none) :
    naiveLoop cur = cur := by
  unfold naiveLoop
  split
  · rename_i c hc
    rw [h] at hc
    cases hc
  · rfl

/-- Unfolding the naive loop around one peel. -/
theorem naiveLoop_some {cur c : Str} (h : naiveFind cur = some c) :
    naiveLoop cur = naiveLoop c := by
  conv_lhs => unfold naiveLoop
  split
  · rename_i c' hc
    rw [h] at hc
    cases hc
    rfl
  · rename_i hc
    rw [h] at hc
    cases hc

/-- The naive loop never shrinks a word below `min length 3`. -/
theorem naiveLoop_min :
    ∀ (n : Nat) (cur : Str), cur.length ≤ n →
      min cur.length 3 ≤ (naiveLoop cur).length := by
  intro n
  induction n with
  | zero =>
    intro cur h
    have h0 : cur.length = 0 := Nat.le_zero.mp h
    calc min cur.length 3 ≤ cur.length := Nat.min_le_left _ _
      _ = 0 := h0
      _ ≤ (naiveLoop cur).length := Nat.zero_le _
  | succ n ih =>
    intro cur h
    cases hf : naiveFind cur with
    | none =>
      rw [naiveLoop_none hf]
      exact Nat.min_le_left _ _
    | some c =>
      rw [naiveLoop_some hf]
      obtain ⟨h3, hlt⟩ := naiveFind_facts hf
      have hrec := ih c (by omega)
      calc min cur.length 3 ≤ 3 := Nat.min_le_right _ _
        _ = min c.length 3 := (Nat.min_eq_right h3).symm
        _ ≤ (naiveLoop c).length := hrec

/-- The compound pass is the identity triple when no compound suffix matches
the word. -/
theorem phase1_nomatch (roots : List Str) (st : Bool) (m : Nat) (ch : Bool)
    (word : Str) :
    ∀ l : List Str, (∀ s ∈ l, s.isSuffixOf word = false) →
      phase1 roots st m ch word l = (word, [], word) := by
  intro l
  induction l with
  | nil => intro _; rfl
  | cons s rest ih =>
    intro h
    unfold phase1
    rw [if_neg (by rw [h s (List.mem_cons_self s rest)]; simp)]
    exact ih (fun x hx => h x (List.mem_cons_of_mem s hx))

/-- The bounded loop stops at once on a dictionary member. -/
theorem phase2_mem (roots : List Str) (st : Bool) (m : Nat) (ch : Bool)
    (fuel iters : Nat) (cur : Str) (stripped : List Str) (best : Str)
    (hc : cur ∈ roots) :
    (phase2 roots st m ch fuel iters cur stripped best).1 = cur := by
  cases fuel with
  | zero => simp [phase2, finalize, hc]
  | succ fuel => simp [phase2, finalize, hc]

/-- A valid root that is not an inflected key and matches no compound suffix
is returned unchanged by the strict validated stripper. -/
theorem strip_id_of_mem {dict : List (Str × Str)} {W : Str} {m : Nat} {ch : Bool}
    (hlk : lookup_lemma dict W = none)
    (hcomp : ∀ s ∈ COMPOUND_SUFFIXES, s.isSuffixOf W = false)
    (hmem : W ∈ valid_roots dict) :
    strip_suffixes_validated dict W true m ch = W := by
  unfold strip_suffixes_validated
  rw [if_pos rfl, hlk]
  show (stripCore dict W true m ch).1 = W
  simp only [stripCore]
  rw [phase1_nomatch (valid_roots dict) true m ch W COMPOUND_SUFFIXES hcomp]
  exact phase2_mem (valid_roots dict) true m ch 10 0 W [] W hmem

/-! ## C5 -/

/-- C5 counterexample: in strict mode with `min_root_length = 10` the Tier-1
lookup returns the dictionary lemma "git" (3 characters) for "gittim"
(6 characters), so the result is shorter than min(|W|, min_root_length). -/
theorem C5_counterexample :
    strip_suffixes_validated spec_lemma_dict (("gittim").data) true 10 true
      = (("git").data)
    ∧ (("git").data).length < min ((("gittim").data)).length 10 := by
  constructor
  · decide
  · decide

/-- C5 amended: whenever the strict-mode exact dictionary lookup does not
hit (strict is false, or the word is not an inflected key), the result R of
`strip_suffixes_validated` satisfies |R| ≥ min(|W|, min_root_length) in
characters; on a strict-mode dictionary hit the mapped lemma is returned
as-is and carries no length guarantee. -/
theorem C5_amended_min_length (dict : List (Str × Str)) (W : Str) (st : Bool)
    (m : Nat) (ch : Bool) (h : st = true → lookup_lemma dict W = none) :
    min W.length m ≤ (strip_suffixes_validated dict W st m ch).length := by
  have hcore : min W.length m ≤ (stripCore dict W st m ch).1.length := by
    have hP := stripCore_P dict W st m ch (fun c => c = W ∨ m ≤ c.length)
      (Or.inl rfl)
      (fun c hc => Or.inr (is_valid_root_len hc))
      (fun c _ hl => Or.inr hl)
    rcases hP with h' | h'
    · rw [h']
      exact Nat.min_le_left _ _
    · exact le_trans (Nat.min_le_right _ _) h'
  unfold strip_suffixes_validated
  cases st with
  | false =>
    rw [if_neg (by simp)]
    exact hcore
  | true =>
    rw [if_pos rfl, h rfl]
    exact hcore

/-- C5 amended witness: with an empty dictionary the lookup misses and the
bound holds for "kitaplar". -/
theorem C5_witness :
    min ((("kitaplar").data)).length 2 ≤
      (strip_suffixes_validated [] (("kitaplar").data) true 2 true).length :=
  C5_amended_min_length [] (("kitaplar").data) true 2 true (fun _ => by decide)

/-! ## C6 -/

/-- C6: for every dictionary and input, every stem returned by the validated
stripper in strict mode is a member of the valid-roots set (the lemma values
of the dictionary) or is the input unchanged. -/
theorem C6_strict_stem_root_or_input (dict : List (Str × Str)) (W : Str)
    (m : Nat) (ch : Bool) :
    strip_suffixes_validated dict W true m ch ∈ valid_roots dict
    ∨ strip_suffixes_validated dict W true m ch = W := by
  unfold strip_suffixes_validated
  rw [if_pos rfl]
  cases hl : lookup_lemma dict W with
  | some l => exact Or.inl (lookup_lemma_mem hl)
  | none =>
    exact stripCore_P dict W true m ch
      (fun c => c ∈ valid_roots dict ∨ c = W) (Or.inr rfl)
      (fun c hc => Or.inl (is_valid_root_strict_mem hc))
      (fun c hc _ => Or.inl hc)

/-! ## C7 -/

/-- C7: the validated stripper in strict mode is the identity on every lemma
value of the (spec-modelled) embedded dictionary. -/
theorem C7_identity_on_lemmas :
    ∀ L ∈ valid_roots spec_lemma_dict,
      strip_suffixes_validated spec_lemma_dict L true 2 true = L := by
  intro L hL
  have hL' : L = ("kitap").data ∨ L = ("gel").data ∨ L = ("git").data := by
    simpa [valid_roots, spec_lemma_dict] using hL
  rcases hL' with rfl | rfl | rfl <;>
    exact strip_id_of_mem (by decide) (by decide) (by decide)

/-- C7 witness: the lemma "kitap" is returned unchanged. -/
theorem C7_witness :
    strip_suffixes_validated spec_lemma_dict (("kitap").data) true 2 true
      = (("kitap").data) :=
  C7_identity_on_lemmas (("kitap").data) (by decide)

/-! ## C8 -/

/-- C8: both strippers terminate on every input — in this embedding both are
total functions; quantitatively, every naive peel strictly shortens the
current string, and the validated stripper's single-suffix loop executes at
most 10 iterations. -/
theorem C8_termination_bounds :
    (∀ cur c : Str, naiveFind cur = some c → c.length < cur.length)
    ∧ (∀ (dict : List (Str × Str)) (W : Str) (st : Bool) (m : Nat) (ch : Bool),
        (stripCore dict W st m ch).2 ≤ 10) := by
  constructor
  · intro cur c h
    exact (naiveFind_facts h).2
  · intro dict W st m ch
    have := phase2_iters (valid_roots dict) st m ch 10 0
      (phase1 (valid_roots dict) st m ch W COMPOUND_SUFFIXES).1
      (phase1 (valid_roots dict) st m ch W COMPOUND_SUFFIXES).2.1
      (phase1 (valid_roots dict) st m ch W COMPOUND_SUFFIXES).2.2
    simpa [stripCore] using this

/-- C8 witness: peeling "lar" off "kitaplar" strictly shortens it. -/
theorem C8_witness : ((("kitap").data)).length < ((("kitaplar").data)).length :=
  C8_termination_bounds.1 (("kitaplar").data) (("kitap").data) (by decide)

/-! ## C9 -/

/-- C9: the naive stripper never returns fewer than min(|W|, 3) characters:
a peel is committed only when strictly more than two characters remain
beyond the suffix, and words of three or fewer characters are returned
unchanged. -/
theorem C9_naive_min_three (W : Str) :
    min W.length 3 ≤ (strip_suffixes W).length
    ∧ (W.length ≤ 3 → strip_suffixes W = W) := by
  constructor
  · exact naiveLoop_min W.length W le_rfl
  · intro h
    exact naiveLoop_none (naiveFind_none_short h)

/-- C9 witness: the three-or-fewer-characters branch at "ev". -/
theorem C9_witness :
    ((("ev").data)).length ≤ 3 ∧ strip_suffixes (("ev").data) = (("ev").data) :=
  ⟨by decide, (C9_naive_min_three (("ev").data)).2 (by decide)⟩

end Durak
